import Mathlib

/-!
Verification of the nidaba/iris alignment engine (`iris/algorithms.py`).

The Python source is shallowly embedded below: token sequences are `List α`
over an arbitrary type `α` with decidable equality (characters or words),
numeric scores are `ℤ` (the code's scores are numbers, with integer scores in
all tests), the `charmatrix` override dictionary is an optional-valued lookup
function whose `none`-keys encode the empty-string sentinel `''`, and the
numpy matrices of `full_edit_distance` are built row by row exactly in the
order the source's loops fill them.
-/

namespace Nidaba

/-- Edit operations recorded in the `steps` matrix of `full_edit_distance`:
match, substitution, insertion, deletion.  The Python code stores them as the
strings `'m'`, `'s'`, `'i'`, `'d'`; the empty string `''` at the origin cell is
modelled by `Option Op` with `none` for `''`. -/
inductive Op : Type where
  | m : Op
  | s : Op
  | i : Op
  | d : Op
deriving DecidableEq, Repr

/-- Lookup in the `charmatrix` override mapping with a default score:
`charmatrix.get(key, default)` in the source.  A key component `none` models
the empty-string sentinel `''` used for boundary costs. -/
def cmGet {α : Type*} (cm : Option α → Option α → Option ℤ)
    (k1 k2 : Option α) (dflt : ℤ) : ℤ :=
  (cm k1 k2).getD dflt

/-- Row `0` of the scoring matrix of `full_edit_distance`:
`matrix[0,0] = 0` and `matrix[0,j] = j*charmatrix.get((str2[j-1], ''), insertscore)`. -/
def row0 {α : Type*} (insertscore : ℤ) (cm : Option α → Option α → Option ℤ)
    (b : List α) : List ℤ :=
  0 :: (List.range b.length).map
    (fun (j : ℕ) => ((j : ℤ) + 1) * cmGet cm (b.get? j) none insertscore)

/-- Interior cells of one row of the scoring matrix of `full_edit_distance`,
for row character `c1 = str1[i-1]`, walking the remaining characters of `str2`
together with the corresponding tail of the previous row, carrying the cell
value to the left.  For each cell: a zero-cost match if the two units are
equal, otherwise the minimum of the substitution (diagonal), insertion (left)
and deletion (above) candidates, each with override lookup falling back to the
corresponding default score — exactly the cell formula of the source's inner
loop. -/
def rowRest {α : Type*} [DecidableEq α] (substitutionscore insertscore deletescore : ℤ)
    (cm : Option α → Option α → Option ℤ) (c1 : Option α) :
    List α → List ℤ → ℤ → List ℤ
  | y :: ys, pd :: pu :: prest, left =>
      let cell :=
        if c1 = some y then pd
        else
          min (min (pd + cmGet cm c1 (some y) substitutionscore)
                   (left + cmGet cm c1 (some y) insertscore))
              (pu + cmGet cm c1 (some y) deletescore)
      cell :: rowRest substitutionscore insertscore deletescore cm c1 ys (pu :: prest) cell
  | _, _, _ => []

/-- Row `i` of the scoring matrix of `full_edit_distance`.  Row `0` is the
boundary row; row `i+1` starts with the boundary cell
`matrix[i+1,0] = (i+1)*charmatrix.get(('', str1[i]), deletescore)` and
continues with the interior cells computed from row `i`. -/
def mrow {α : Type*} [DecidableEq α] (substitutionscore insertscore deletescore : ℤ)
    (cm : Option α → Option α → Option ℤ) (a b : List α) : ℕ → List ℤ
  | 0 => row0 insertscore cm b
  | i + 1 =>
      let first : ℤ := ((i : ℤ) + 1) * cmGet cm none (a.get? i) deletescore
      first :: rowRest substitutionscore insertscore deletescore cm (a.get? i) b
        (mrow substitutionscore insertscore deletescore cm a b i) first

/-- Cell `(i, j)` of the scoring matrix returned by `full_edit_distance`. -/
def fedMatrix {α : Type*} [DecidableEq α] (substitutionscore insertscore deletescore : ℤ)
    (cm : Option α → Option α → Option ℤ) (a b : List α) (i j : ℕ) : ℤ :=
  (mrow substitutionscore insertscore deletescore cm a b i).getD j 0

/-- Cell `(i, j)` of the operation matrix `steps` returned by
`full_edit_distance`: `''` at the origin, `'d'` down column `0`, `'i'` along
row `0`, and in the interior a match when the two units are equal, otherwise
the first minimum of the tuple
`(('s', cs), ('i', ci), ('d', cd))` exactly as Python's `min` selects it. -/
def fedSteps {α : Type*} [DecidableEq α] (substitutionscore insertscore deletescore : ℤ)
    (cm : Option α → Option α → Option ℤ) (a b : List α) : ℕ → ℕ → Option Op
  | 0, 0 => none
  | _ + 1, 0 => some Op.d
  | 0, _ + 1 => some Op.i
  | i + 1, j + 1 =>
      if a.get? i = b.get? j then some Op.m
      else
        let cs := fedMatrix substitutionscore insertscore deletescore cm a b i j +
          cmGet cm (a.get? i) (b.get? j) substitutionscore
        let ci := fedMatrix substitutionscore insertscore deletescore cm a b (i + 1) j +
          cmGet cm (a.get? i) (b.get? j) insertscore
        let cd := fedMatrix substitutionscore insertscore deletescore cm a b i (j + 1) +
          cmGet cm (a.get? i) (b.get? j) deletescore
        let best := if ci < cs then (Op.i, ci) else (Op.s, cs)
        some (if cd < best.2 then Op.d else best.1)

/-- The pair returned by `full_edit_distance`: the scoring matrix and the
operation matrix, both as cell-indexed functions. -/
def full_edit_distance {α : Type*} [DecidableEq α]
    (substitutionscore insertscore deletescore : ℤ)
    (cm : Option α → Option α → Option ℤ) (a b : List α) :
    (ℕ → ℕ → ℤ) × (ℕ → ℕ → Option Op) :=
  (fedMatrix substitutionscore insertscore deletescore cm a b,
   fedSteps substitutionscore insertscore deletescore cm a b)

/-- The backtrace loop of `align`: starting from a cell, repeatedly prepend
the operation recorded at the current cell and move the cursor by `(0,-1)` for
insertion, `(-1,0)` for deletion and `(-1,-1)` for match/substitution, until
the operation cell is empty.  The loop is run with explicit fuel; the source's
`while` loop corresponds to sufficient fuel, which `align` supplies and the
termination theorem justifies. -/
def btr (steps : ℕ → ℕ → Option Op) : ℕ → ℕ → ℕ → List Op
  | 0, _, _ => []
  | f + 1, i, j =>
      match steps i j with
      | none => []
      | some Op.i => btr steps f i (j - 1) ++ [Op.i]
      | some Op.d => btr steps f (i - 1) j ++ [Op.d]
      | some Op.m => btr steps f (i - 1) (j - 1) ++ [Op.m]
      | some Op.s => btr steps f (i - 1) (j - 1) ++ [Op.s]

/-- Cursor movement of the backtrace loop of `align`, as recorded in its
`key` dictionary: `(0,-1)` for insertion, `(-1,0)` for deletion, `(-1,-1)` for
match and substitution. -/
def opMove (op : Op) (i j : ℕ) : ℕ × ℕ :=
  match op with
  | Op.i => (i, j - 1)
  | Op.d => (i - 1, j)
  | Op.m => (i - 1, j - 1)
  | Op.s => (i - 1, j - 1)

/-- `align(str1, str2, ...)`: compute the matrices via `full_edit_distance`,
then backtrace from cell `(len(str1), len(str2))` to the origin, returning the
forward-ordered operation sequence. -/
def align {α : Type*} [DecidableEq α] (substitutionscore insertscore deletescore : ℤ)
    (cm : Option α → Option α → Option ℤ) (a b : List α) : List Op :=
  btr (fedSteps substitutionscore insertscore deletescore cm a b)
    (a.length + b.length + 1) a.length b.length

/-- One iteration of the row loop of `edit_distance` for row character `s`:
`current_row = previous_row + 1`, then the vectorised substitution/match
relaxation `current_row[1:] = min(current_row[1:], previous_row[:-1] + (str2 != s))`,
then the vectorised (single-pass, parallel) deletion relaxation
`current_row[1:] = min(current_row[1:], current_row[0:-1] + 1)`.  Both numpy
assignments fully evaluate their right-hand sides before assigning, which the
`zipWith` formulation reproduces. -/
def edRowStep {α : Type*} [DecidableEq α] (s2 : List α) (prev : List ℕ) (s : α) :
    List ℕ :=
  let cur := prev.map (· + 1)
  let subbed :=
    match cur with
    | [] => []
    | h :: t =>
        h :: List.zipWith min t
          (List.zipWith (fun p y => p + if y = s then 0 else 1) prev s2)
  match subbed with
  | [] => []
  | h :: t => h :: List.zipWith min t ((h :: t).map (· + 1))

/-- Body of `edit_distance` after the argument swap: if `str2` is empty return
`len(str1)`, otherwise run the rolling two-row dynamic program over the
characters of `str1` starting from `previous_row = arange(len(str2)+1)` and
return the last entry of the final row. -/
def ed_core {α : Type*} [DecidableEq α] (s1 s2 : List α) : ℕ :=
  if s2.length = 0 then s1.length
  else (s1.foldl (edRowStep s2) (List.range (s2.length + 1))).getLastD 0

/-- `edit_distance(str1, str2)`: swap so that the first sequence is the longer
of the two, then run the rolling two-row dynamic program. -/
def edit_distance {α : Type*} [DecidableEq α] (s1 s2 : List α) : ℕ :=
  if s1.length < s2.length then ed_core s2 s1 else ed_core s1 s2

/-- Replay semantics of an edit-operation sequence, as described by the spec's
replay property: starting from the two sequences, each `m` consumes one unit
from both and requires the two units to be equal, each `s` consumes one unit
from both, each `i` consumes one unit of the second sequence, each `d`
consumes one unit of the first; `m`, `s` and `i` emit the consumed unit of the
second sequence.  Returns `some (emitted, leftover₁, leftover₂)`, or `none`
when an operation's requirement is violated. -/
def applyOps {α : Type*} [DecidableEq α] :
    List Op → List α → List α → Option (List α × List α × List α)
  | [], a, b => some ([], a, b)
  | Op.m :: ops, x :: a, y :: b =>
      if x = y then (applyOps ops a b).map (fun r => (y :: r.1, r.2.1, r.2.2)) else none
  | Op.s :: ops, _ :: a, y :: b =>
      (applyOps ops a b).map (fun r => (y :: r.1, r.2.1, r.2.2))
  | Op.i :: ops, a, y :: b =>
      (applyOps ops a b).map (fun r => (y :: r.1, r.2.1, r.2.2))
  | Op.d :: ops, _ :: a, b =>
      (applyOps ops a b).map (fun r => (r.1, r.2.1, r.2.2))
  | _, _, _ => none

/-- Replaying an operation sequence onto the pair `(a, b)`: succeeds with the
emitted sequence when every operation's requirement is met and both sequences
are fully consumed at the end. -/
def replay {α : Type*} [DecidableEq α] (a b : List α) (ops : List Op) :
    Option (List α) :=
  match applyOps ops a b with
  | some (e, [], []) => some e
  | _ => none

/-- Total cost of an edit script under a cost configuration, charging each
operation the score the scoring matrix of `full_edit_distance` charges at the
corresponding cell: the counters `i`, `j` track how many units of each
sequence have been consumed so far, matches are free, and each other operation
costs its override-or-default score, with the boundary key conventions of the
source (`(str2[j-1], '')` for an insertion in row `0`, `('', str1[i-1])` for a
deletion in column `0`, and the pair `(str1[i-1], str2[j-1])` of the target
cell otherwise). -/
def pathCost {α : Type*} (substitutionscore insertscore deletescore : ℤ)
    (cm : Option α → Option α → Option ℤ) (a b : List α) :
    ℕ → ℕ → List Op → ℤ
  | _, _, [] => 0
  | i, j, Op.m :: ops => pathCost substitutionscore insertscore deletescore cm a b
      (i + 1) (j + 1) ops
  | i, j, Op.s :: ops =>
      cmGet cm (a.get? i) (b.get? j) substitutionscore +
        pathCost substitutionscore insertscore deletescore cm a b (i + 1) (j + 1) ops
  | i, j, Op.i :: ops =>
      (if i = 0 then cmGet cm (b.get? j) none insertscore
       else cmGet cm (a.get? (i - 1)) (b.get? j) insertscore) +
        pathCost substitutionscore insertscore deletescore cm a b i (j + 1) ops
  | i, j, Op.d :: ops =>
      (if j = 0 then cmGet cm none (a.get? i) deletescore
       else cmGet cm (a.get? i) (b.get? (j - 1)) deletescore) +
        pathCost substitutionscore insertscore deletescore cm a b (i + 1) j ops

/-- Reference prefix edit distance with unit costs: `lp a b i j` is the
standard Wagner-Fischer recurrence on the first `i` units of `a` and the first
`j` units of `b`.  This is the mathematical specification against which both
matrix implementations are measured. -/
def lp {α : Type*} [DecidableEq α] (a b : List α) : ℕ → ℕ → ℕ
  | 0, j => j
  | i + 1, 0 => i + 1
  | i + 1, j + 1 =>
      if a.get? i = b.get? j then lp a b i j
      else 1 + min (lp a b i j) (min (lp a b (i + 1) j) (lp a b i (j + 1)))
termination_by i j => i + j
decreasing_by
  all_goals omega

/-- Codepoints of the Greek and Coptic unicode block as coded:
`range(ord(u'Ͱ'), ord(u'Ͽ')+1)`. -/
def greek_and_coptic_range : List ℕ :=
  List.range' 0x370 (0x3FF - 0x370 + 1)

/-- Codepoints of the Extended Greek unicode block as coded:
`range(ord(u'ἀ'), ord(u'῿')+1)`. -/
def extended_greek_range : List ℕ :=
  List.range' 0x1F00 (0x1FFF - 0x1F00 + 1)

/-- Codepoints of the combining diacritical mark range as coded:
`range(ord(u'̀'), ord(u'͠')+1)` — note the upper bound `U+0360`. -/
def combining_diacritical_mark_range : List ℕ :=
  List.range' 0x300 (0x360 - 0x300 + 1)

/-- `greek_chars()`: the characters of the Greek and Coptic range, followed by
those of the Extended Greek range, followed by those of the combining
diacritical mark range. -/
def greek_chars : List Char :=
  greek_and_coptic_range.map Char.ofNat ++
    extended_greek_range.map Char.ofNat ++
    combining_diacritical_mark_range.map Char.ofNat

/-- `greek_filter(string)`: keep exactly the characters contained in
`greek_chars()`, in order. -/
def greek_filter (s : List Char) : List Char :=
  s.filter (fun c => greek_chars.contains c)

/-- Membership of a codepoint in one of the three coded Greek ranges, stated
by interval bounds. -/
def inGreekRanges (n : ℕ) : Prop :=
  (0x370 ≤ n ∧ n ≤ 0x3FF) ∨ (0x1F00 ≤ n ∧ n ≤ 0x1FFF) ∨ (0x300 ≤ n ∧ n ≤ 0x360)

instance (n : ℕ) : Decidable (inGreekRanges n) := by
  unfold inGreekRanges
  infer_instance

/-- Modelled from the spec: the distinct algorithm-usage error signalled by
semi-global alignment when called with the first sequence longer than the
second (the `NidabaAlgorithmException` of the surrounding system; the
implementation of `semi_global_align` is not part of the embedded source
file, only its specification and tests are available). -/
inductive NidabaAlgorithmException : Type where
  | orderingError : NidabaAlgorithmException
deriving DecidableEq, Repr

/-- Modelled from the spec: index of the first minimum of a list (numpy's
`argmin` convention), used for the semi-global traceback start. -/
def firstMinIdx (l : List ℤ) : ℕ :=
  (l.foldl
    (fun (st : ℕ × ℕ × Option ℤ) v =>
      match st.2.2 with
      | none => (st.1 + 1, st.1, some v)
      | some bv => if v < bv then (st.1 + 1, st.1, some v) else (st.1 + 1, st.2.1, some bv))
    (0, 0, none)).2.1

/-- Modelled from the spec: row `i` of the semi-global scoring matrix, which
differs from the matrix of `full_edit_distance` only in that row `0` is all
zero (a leading prefix of the second sequence can be skipped for free). -/
def sgRow {α : Type*} [DecidableEq α] (substitutionscore insertscore deletescore : ℤ)
    (cm : Option α → Option α → Option ℤ) (a b : List α) : ℕ → List ℤ
  | 0 => List.replicate (b.length + 1) 0
  | i + 1 =>
      let first : ℤ := ((i : ℤ) + 1) * cmGet cm none (a.get? i) deletescore
      first :: rowRest substitutionscore insertscore deletescore cm (a.get? i) b
        (sgRow substitutionscore insertscore deletescore cm a b i) first

/-- Modelled from the spec: cell `(i, j)` of the semi-global scoring matrix. -/
def sgMatrix {α : Type*} [DecidableEq α] (substitutionscore insertscore deletescore : ℤ)
    (cm : Option α → Option α → Option ℤ) (a b : List α) (i j : ℕ) : ℤ :=
  (sgRow substitutionscore insertscore deletescore cm a b i).getD j 0

/-- Modelled from the spec: the semi-global operation matrix, built from the
semi-global scoring matrix with the same cell rule as `full_edit_distance`. -/
def sgSteps {α : Type*} [DecidableEq α] (substitutionscore insertscore deletescore : ℤ)
    (cm : Option α → Option α → Option ℤ) (a b : List α) : ℕ → ℕ → Option Op
  | 0, 0 => none
  | _ + 1, 0 => some Op.d
  | 0, _ + 1 => some Op.i
  | i + 1, j + 1 =>
      if a.get? i = b.get? j then some Op.m
      else
        let cs := sgMatrix substitutionscore insertscore deletescore cm a b i j +
          cmGet cm (a.get? i) (b.get? j) substitutionscore
        let ci := sgMatrix substitutionscore insertscore deletescore cm a b (i + 1) j +
          cmGet cm (a.get? i) (b.get? j) insertscore
        let cd := sgMatrix substitutionscore insertscore deletescore cm a b i (j + 1) +
          cmGet cm (a.get? i) (b.get? j) deletescore
        let best := if ci < cs then (Op.i, ci) else (Op.s, cs)
        some (if cd < best.2 then Op.d else best.1)

/-- Modelled from the spec: `semi_global_align(seq1, seq2, costs)` fails with
the distinct algorithm-usage error when `len(seq1) > len(seq2)` (never
silently swapping the arguments); otherwise it computes the semi-global
matrices, starts the traceback at the minimum-cost cell across the entire last
row, and returns the forward-ordered operation sequence, the trailing
unmatched suffix of `seq2` being excluded. -/
def semi_global_align {α : Type*} [DecidableEq α]
    (substitutionscore insertscore deletescore : ℤ)
    (cm : Option α → Option α → Option ℤ) (a b : List α) :
    Except NidabaAlgorithmException (List Op) :=
  if b.length < a.length then
    Except.error NidabaAlgorithmException.orderingError
  else
    let lastRow := sgRow substitutionscore insertscore deletescore cm a b a.length
    let jmin := firstMinIdx lastRow
    Except.ok (btr (sgSteps substitutionscore insertscore deletescore cm a b)
      (a.length + jmin + 1) a.length jmin)

section MatrixRecurrence

variable {α : Type*} [DecidableEq α] (S I D : ℤ) (cm : Option α → Option α → Option ℤ)
variable (a b : List α)

lemma cmGet_const_none (k1 k2 : Option α) (dflt : ℤ) :
    cmGet (fun _ _ => none) k1 k2 dflt = dflt := rfl

lemma row0_length : (row0 I cm b).length = b.length + 1 := by
  simp [row0]

lemma rowRest_length (c1 : Option α) :
    ∀ (ys : List α) (prow : List ℤ) (left : ℤ),
      (rowRest S I D cm c1 ys prow left).length = min ys.length (prow.length - 1) := by
  intro ys
  induction ys with
  | nil => intro prow left; simp [rowRest]
  | cons y ys ih =>
      intro prow left
      match prow with
      | [] => simp [rowRest]
      | [pd] => simp [rowRest]
      | pd :: pu :: prest =>
          simp only [rowRest, List.length_cons, ih]
          omega

lemma mrow_length (i : ℕ) : (mrow S I D cm a b i).length = b.length + 1 := by
  induction i with
  | zero => simpa [mrow] using row0_length I cm b
  | succ i ih =>
      simp only [mrow, List.length_cons, rowRest_length, ih]
      omega

lemma mrow_drop_cons (i j : ℕ) (hj : j < b.length + 1) :
    (mrow S I D cm a b i).drop j =
      fedMatrix S I D cm a b i j :: (mrow S I D cm a b i).drop (j + 1) := by
  have hlen : j < (mrow S I D cm a b i).length := by
    rw [mrow_length]; omega
  rw [List.drop_eq_getElem_cons hlen]
  congr 1
  simp [fedMatrix, List.getD_eq_getElem?_getD, List.getElem?_eq_getElem hlen]

lemma fedMatrix_zero_zero : fedMatrix S I D cm a b 0 0 = 0 := rfl

lemma fedMatrix_succ_zero (i : ℕ) :
    fedMatrix S I D cm a b (i + 1) 0 = ((i : ℤ) + 1) * cmGet cm none (a.get? i) D := by
  simp [fedMatrix, mrow]

lemma fedMatrix_zero_succ (j : ℕ) (hj : j < b.length) :
    fedMatrix S I D cm a b 0 (j + 1) = ((j : ℤ) + 1) * cmGet cm (b.get? j) none I := by
  simp [fedMatrix, mrow, row0, List.getElem?_map, List.getElem?_range hj]

lemma mrow_scan (i : ℕ) :
    ∀ j, j ≤ b.length →
      rowRest S I D cm (a.get? i) (b.drop j) ((mrow S I D cm a b i).drop j)
          (fedMatrix S I D cm a b (i + 1) j)
        = (mrow S I D cm a b (i + 1)).drop (j + 1) := by
  intro j
  induction j with
  | zero =>
      intro _
      simp only [List.drop_zero, fedMatrix_succ_zero]
      simp [mrow]
  | succ j ih =>
      intro hj1
      have hj : j < b.length := by omega
      have H := ih (by omega)
      rw [mrow_drop_cons S I D cm a b i j (by omega),
          mrow_drop_cons S I D cm a b i (j + 1) (by omega),
          List.drop_eq_getElem_cons hj] at H
      rw [rowRest] at H
      rw [mrow_drop_cons S I D cm a b (i + 1) (j + 1) (by omega)] at H
      have Hhead := (List.cons.injEq _ _ _ _).mp H
      rw [mrow_drop_cons S I D cm a b i (j + 1) (by omega)]
      rw [← Hhead.1] at *
      exact Hhead.2

lemma fedMatrix_succ_succ (i j : ℕ) (hj : j < b.length) :
    fedMatrix S I D cm a b (i + 1) (j + 1) =
      if a.get? i = b.get? j then fedMatrix S I D cm a b i j
      else
        min (min (fedMatrix S I D cm a b i j + cmGet cm (a.get? i) (b.get? j) S)
                 (fedMatrix S I D cm a b (i + 1) j + cmGet cm (a.get? i) (b.get? j) I))
            (fedMatrix S I D cm a b i (j + 1) + cmGet cm (a.get? i) (b.get? j) D) := by
  have H := mrow_scan S I D cm a b i j hj.le
  rw [mrow_drop_cons S I D cm a b i j (by omega),
      mrow_drop_cons S I D cm a b i (j + 1) (by omega),
      List.drop_eq_getElem_cons hj] at H
  rw [rowRest] at H
  rw [mrow_drop_cons S I D cm a b (i + 1) (j + 1) (by omega)] at H
  have Hhead := ((List.cons.injEq _ _ _ _).mp H).1
  have hbj : b.get? j = some b[j] := by
    rw [List.get?_eq_getElem?, List.getElem?_eq_getElem hj]
  rw [← Hhead, hbj]

end MatrixRecurrence

section LpLemmas

variable {α : Type*} [DecidableEq α] (a b : List α)

lemma lp_zero_left (j : ℕ) : lp a b 0 j = j := by
  rw [lp]

lemma lp_succ_zero (i : ℕ) : lp a b (i + 1) 0 = i + 1 := by
  rw [lp]

lemma lp_succ_succ (i j : ℕ) :
    lp a b (i + 1) (j + 1) =
      if a.get? i = b.get? j then lp a b i j
      else 1 + min (lp a b i j) (min (lp a b (i + 1) j) (lp a b i (j + 1))) := by
  rw [lp]

lemma lp_left_zero (i : ℕ) : lp a b i 0 = i := by
  match i with
  | 0 => rw [lp_zero_left]
  | i' + 1 => rw [lp_succ_zero]

/-- Adjacent-cell inequalities for the reference prefix distance: horizontal
and vertical steps change the value by at most one, and the value is monotone
with unit Lipschitz bound along the diagonal. -/
lemma lp_adjacent (i j : ℕ) :
    (lp a b i (j + 1) ≤ lp a b i j + 1) ∧
    (lp a b i j ≤ lp a b i (j + 1) + 1) ∧
    (lp a b (i + 1) j ≤ lp a b i j + 1) ∧
    (lp a b i j ≤ lp a b (i + 1) j + 1) ∧
    (lp a b i j ≤ lp a b (i + 1) (j + 1)) ∧
    (lp a b (i + 1) (j + 1) ≤ lp a b i j + 1) := by
  have key : ∀ n, ∀ i j : ℕ, i + j = n →
      (lp a b i (j + 1) ≤ lp a b i j + 1) ∧
      (lp a b i j ≤ lp a b i (j + 1) + 1) ∧
      (lp a b (i + 1) j ≤ lp a b i j + 1) ∧
      (lp a b i j ≤ lp a b (i + 1) j + 1) ∧
      (lp a b i j ≤ lp a b (i + 1) (j + 1)) ∧
      (lp a b (i + 1) (j + 1) ≤ lp a b i j + 1) := by
    intro n
    induction n using Nat.strong_induction_on with
    | _ n IH =>
      intro i j hn
      have hA : lp a b i (j + 1) ≤ lp a b i j + 1 := by
        match i with
        | 0 => rw [lp_zero_left, lp_zero_left]
        | i' + 1 =>
            have h1 := (IH (i' + j) (by omega) i' j rfl).2.2.2.1
            rw [lp_succ_succ]
            split <;> omega
      have hB : lp a b i j ≤ lp a b i (j + 1) + 1 := by
        match i with
        | 0 => rw [lp_zero_left, lp_zero_left]; omega
        | i' + 1 =>
            have h1 := (IH (i' + j) (by omega) i' j rfl).2.2.1
            have h2 := (IH (i' + j) (by omega) i' j rfl).2.1
            rw [lp_succ_succ]
            split <;> omega
      have hC : lp a b (i + 1) j ≤ lp a b i j + 1 := by
        match j with
        | 0 => rw [lp_left_zero, lp_left_zero]
        | j' + 1 =>
            have h1 := (IH (i + j') (by omega) i j' rfl).2.1
            rw [lp_succ_succ]
            split <;> omega
      have hDd : lp a b i j ≤ lp a b (i + 1) j + 1 := by
        match j with
        | 0 => rw [lp_left_zero, lp_left_zero]; omega
        | j' + 1 =>
            have h1 := (IH (i + j') (by omega) i j' rfl).1
            have h2 := (IH (i + j') (by omega) i j' rfl).2.2.2.1
            rw [lp_succ_succ]
            split <;> omega
      refine ⟨hA, hB, hC, hDd, ?_, ?_⟩
      · rw [lp_succ_succ]
        split <;> omega
      · rw [lp_succ_succ]
        split <;> omega
  exact key (i + j) i j rfl

/-- With default costs (all three scores `1`, empty override mapping) the
scoring matrix of `full_edit_distance` computes the reference prefix edit
distance. -/
lemma fedMatrix_default_eq_lp (i j : ℕ) (hj : j ≤ b.length) :
    fedMatrix 1 1 1 (fun _ _ => none) a b i j = (lp a b i j : ℤ) := by
  have key : ∀ n, ∀ i j : ℕ, i + j = n → j ≤ b.length →
      fedMatrix 1 1 1 (fun _ _ => none) a b i j = (lp a b i j : ℤ) := by
    intro n
    induction n using Nat.strong_induction_on with
    | _ n IH =>
      intro i j hn hj
      match i, j with
      | 0, 0 =>
          rw [fedMatrix_zero_zero, lp_zero_left]
          simp
      | i + 1, 0 =>
          rw [fedMatrix_succ_zero, lp_succ_zero, cmGet_const_none]
          push_cast
          ring
      | 0, j + 1 =>
          rw [fedMatrix_zero_succ 1 1 1 _ a b j (by omega), lp_zero_left, cmGet_const_none]
          push_cast
          ring
      | i + 1, j + 1 =>
          rw [fedMatrix_succ_succ 1 1 1 _ a b i j (by omega), lp_succ_succ]
          have h1 := IH (i + j) (by omega) i j rfl (by omega)
          have h2 := IH (i + j + 1) (by omega) (i + 1) j (by omega) (by omega)
          have h3 := IH (i + j + 1) (by omega) i (j + 1) (by omega) (by omega)
          rw [h1, h2, h3]
          simp only [cmGet_const_none]
          split
          · rfl
          · push_cast
            omega
  exact key (i + j) i j rfl hj

end LpLemmas

section Backtrace

variable {α : Type*} [DecidableEq α] (S I D : ℤ) (cm : Option α → Option α → Option ℤ)
variable (a b : List α)

lemma fedSteps_none_iff (i j : ℕ) :
    fedSteps S I D cm a b i j = none ↔ i = 0 ∧ j = 0 := by
  match i, j with
  | 0, 0 => simp [fedSteps]
  | i + 1, 0 => simp [fedSteps]
  | 0, j + 1 => simp [fedSteps]
  | i + 1, j + 1 =>
      simp only [fedSteps]
      split
      · simp
      · split <;> split <;> simp

lemma fedSteps_i_pos {i j : ℕ} (h : fedSteps S I D cm a b i j = some Op.i) :
    1 ≤ j := by
  match i, j with
  | 0, 0 => simp [fedSteps] at h
  | i + 1, 0 => simp [fedSteps] at h
  | 0, j + 1 => omega
  | i + 1, j + 1 => omega

lemma fedSteps_d_pos {i j : ℕ} (h : fedSteps S I D cm a b i j = some Op.d) :
    1 ≤ i := by
  match i, j with
  | 0, 0 => simp [fedSteps] at h
  | 0, j + 1 => simp [fedSteps] at h
  | i + 1, 0 => omega
  | i + 1, j + 1 => omega

lemma fedSteps_m_eq {i j : ℕ} (h : fedSteps S I D cm a b i j = some Op.m) :
    ∃ i' j', i = i' + 1 ∧ j = j' + 1 ∧ a.get? i' = b.get? j' := by
  match i, j with
  | 0, 0 => simp [fedSteps] at h
  | i + 1, 0 => simp [fedSteps] at h
  | 0, j + 1 => simp [fedSteps] at h
  | i + 1, j + 1 =>
      refine ⟨i, j, rfl, rfl, ?_⟩
      by_contra hne
      simp only [fedSteps, if_neg hne] at h
      split at h <;> split at h <;> simp at h

lemma fedSteps_s_pos {i j : ℕ} (h : fedSteps S I D cm a b i j = some Op.s) :
    1 ≤ i ∧ 1 ≤ j := by
  match i, j with
  | 0, 0 => simp [fedSteps] at h
  | i + 1, 0 => simp [fedSteps] at h
  | 0, j + 1 => simp [fedSteps] at h
  | i + 1, j + 1 => omega

lemma btr_fuel_eq :
    ∀ n i j f g, i + j = n → i + j + 1 ≤ f → i + j + 1 ≤ g →
      btr (fedSteps S I D cm a b) f i j = btr (fedSteps S I D cm a b) g i j := by
  intro n
  induction n using Nat.strong_induction_on with
  | _ n IH =>
    intro i j f g hn hf hg
    match f, g with
    | f + 1, g + 1 =>
      simp only [btr]
      cases h : fedSteps S I D cm a b i j with
      | none => rfl
      | some op =>
          cases op with
          | i =>
              have hj := fedSteps_i_pos S I D cm a b h
              rw [IH (i + (j - 1)) (by omega) i (j - 1) f g rfl (by omega) (by omega)]
          | d =>
              have hi := fedSteps_d_pos S I D cm a b h
              rw [IH ((i - 1) + j) (by omega) (i - 1) j f g rfl (by omega) (by omega)]
          | m =>
              obtain ⟨i', j', rfl, rfl, _⟩ := fedSteps_m_eq S I D cm a b h
              rw [IH ((i' + 1 - 1) + (j' + 1 - 1)) (by omega) (i' + 1 - 1) (j' + 1 - 1)
                f g rfl (by omega) (by omega)]
          | s =>
              have hij := fedSteps_s_pos S I D cm a b h
              rw [IH ((i - 1) + (j - 1)) (by omega) (i - 1) (j - 1) f g rfl
                (by omega) (by omega)]

lemma applyOps_append_some :
    ∀ (l1 : List Op) (A B e ar br : List α), applyOps l1 A B = some (e, ar, br) →
      ∀ (l2 : List Op) (e2 ar2 br2 : List α), applyOps l2 ar br = some (e2, ar2, br2) →
        applyOps (l1 ++ l2) A B = some (e ++ e2, ar2, br2) := by
  intro l1
  induction l1 with
  | nil =>
      intro A B e ar br h1 l2 e2 ar2 br2 h2
      simp only [applyOps, Option.some.injEq, Prod.mk.injEq] at h1
      obtain ⟨rfl, rfl, rfl⟩ := h1
      simpa using h2
  | cons op l1 ih =>
      intro A B e ar br h1 l2 e2 ar2 br2 h2
      match op, A, B with
      | Op.m, [], B => simp [applyOps] at h1
      | Op.m, x :: A, [] => simp [applyOps] at h1
      | Op.m, x :: A, y :: B =>
          simp only [applyOps] at h1 ⊢
          split at h1
          · rw [Option.map_eq_some'] at h1
            obtain ⟨⟨e', ar', br'⟩, hr, hre⟩ := h1
            simp only [Prod.mk.injEq] at hre
            obtain ⟨he, har, hbr⟩ := hre
            have h2' : applyOps l2 ar' br' = some (e2, ar2, br2) := by
              rw [har, hbr]; exact h2
            have h3 := ih A B e' ar' br' hr l2 e2 ar2 br2 h2'
            rw [if_pos (by assumption), show l1.append l2 = l1 ++ l2 from rfl, h3]
            simp [← he]
          · exact absurd h1 (by simp)
      | Op.s, [], B => simp [applyOps] at h1
      | Op.s, x :: A, [] => simp [applyOps] at h1
      | Op.s, x :: A, y :: B =>
          simp only [applyOps] at h1 ⊢
          rw [Option.map_eq_some'] at h1
          obtain ⟨⟨e', ar', br'⟩, hr, hre⟩ := h1
          simp only [Prod.mk.injEq] at hre
          obtain ⟨he, har, hbr⟩ := hre
          have h2' : applyOps l2 ar' br' = some (e2, ar2, br2) := by
            rw [har, hbr]; exact h2
          have h3 := ih A B e' ar' br' hr l2 e2 ar2 br2 h2'
          rw [show l1.append l2 = l1 ++ l2 from rfl, h3]
          simp [← he]
      | Op.i, A, [] => simp [applyOps] at h1
      | Op.i, A, y :: B =>
          simp only [applyOps] at h1 ⊢
          rw [Option.map_eq_some'] at h1
          obtain ⟨⟨e', ar', br'⟩, hr, hre⟩ := h1
          simp only [Prod.mk.injEq] at hre
          obtain ⟨he, har, hbr⟩ := hre
          have h2' : applyOps l2 ar' br' = some (e2, ar2, br2) := by
            rw [har, hbr]; exact h2
          have h3 := ih A B e' ar' br' hr l2 e2 ar2 br2 h2'
          rw [show l1.append l2 = l1 ++ l2 from rfl, h3]
          simp [← he]
      | Op.d, [], B => simp [applyOps] at h1
      | Op.d, x :: A, B =>
          simp only [applyOps] at h1 ⊢
          rw [Option.map_eq_some'] at h1
          obtain ⟨⟨e', ar', br'⟩, hr, hre⟩ := h1
          simp only [Prod.mk.injEq] at hre
          obtain ⟨he, har, hbr⟩ := hre
          have h2' : applyOps l2 ar' br' = some (e2, ar2, br2) := by
            rw [har, hbr]; exact h2
          have h3 := ih A B e' ar' br' hr l2 e2 ar2 br2 h2'
          rw [show l1.append l2 = l1 ++ l2 from rfl, h3]
          simp [← he]

lemma btr_applyOps :
    ∀ n i j, i + j = n → i ≤ a.length → j ≤ b.length →
      applyOps (btr (fedSteps S I D cm a b) (i + j + 1) i j) a b =
        some (b.take j, a.drop i, b.drop j) := by
  intro n
  induction n using Nat.strong_induction_on with
  | _ n IH =>
    intro i j hn hi hj
    rw [show i + j + 1 = (i + j) + 1 from rfl]
    simp only [btr]
    cases h : fedSteps S I D cm a b i j with
    | none =>
        obtain ⟨rfl, rfl⟩ := (fedSteps_none_iff S I D cm a b i j).mp h
        simp [applyOps]
    | some op =>
        cases op with
        | i =>
            have hj1 := fedSteps_i_pos S I D cm a b h
            obtain ⟨j', rfl⟩ : ∃ j', j = j' + 1 := ⟨j - 1, by omega⟩
            have hfuel : i + (j' + 1) = i + j' + 1 := by omega
            have hIH := IH (i + j') (by omega) i j' rfl hi (by omega)
            have hbj : b.drop j' = b[j'] :: b.drop (j' + 1) :=
              List.drop_eq_getElem_cons (by omega)
            have hstep : applyOps [Op.i] (a.drop i) (b.drop j') =
                some ([b[j']], a.drop i, b.drop (j' + 1)) := by
              rw [hbj]; simp [applyOps]
            have := applyOps_append_some (btr (fedSteps S I D cm a b) (i + j' + 1) i j')
              a b (b.take j') (a.drop i) (b.drop j') hIH [Op.i]
              [b[j']] (a.drop i) (b.drop (j' + 1)) hstep
            simp only [Nat.add_sub_cancel, hfuel, this]
            have : b.take j' ++ [b[j']] = b.take (j' + 1) := by
              rw [List.take_succ, List.getElem?_eq_getElem (by omega)]
              rfl
            rw [this]
        | d =>
            have hi1 := fedSteps_d_pos S I D cm a b h
            obtain ⟨i', rfl⟩ : ∃ i', i = i' + 1 := ⟨i - 1, by omega⟩
            have hIH := IH (i' + j) (by omega) i' j rfl (by omega) hj
            have hai : a.drop i' = a[i'] :: a.drop (i' + 1) :=
              List.drop_eq_getElem_cons (by omega)
            have hstep : applyOps [Op.d] (a.drop i') (b.drop j) =
                some ([], a.drop (i' + 1), b.drop j) := by
              rw [hai]; simp [applyOps]
            have := applyOps_append_some (btr (fedSteps S I D cm a b) (i' + j + 1) i' j)
              a b (b.take j) (a.drop i') (b.drop j) hIH [Op.d]
              [] (a.drop (i' + 1)) (b.drop j) hstep
            have hfuel : i' + 1 + j = i' + j + 1 := by omega
            simp only [Nat.add_sub_cancel, hfuel, this]
            simp
        | m =>
            obtain ⟨i', j', rfl, rfl, hget⟩ := fedSteps_m_eq S I D cm a b h
            have hIH := IH (i' + j') (by omega) i' j' rfl (by omega) (by omega)
            have hfe := btr_fuel_eq S I D cm a b (i' + j') i' j'
              (i' + 1 + (j' + 1)) (i' + j' + 1) rfl (by omega) (by omega)
            have hai : a.drop i' = a[i'] :: a.drop (i' + 1) :=
              List.drop_eq_getElem_cons (by omega)
            have hbj : b.drop j' = b[j'] :: b.drop (j' + 1) :=
              List.drop_eq_getElem_cons (by omega)
            have hxy : a[i'] = b[j'] := by
              rw [List.get?_eq_getElem?, List.get?_eq_getElem?,
                List.getElem?_eq_getElem (show i' < a.length by omega),
                List.getElem?_eq_getElem (show j' < b.length by omega)] at hget
              exact Option.some.inj hget
            have hstep : applyOps [Op.m] (a.drop i') (b.drop j') =
                some ([b[j']], a.drop (i' + 1), b.drop (j' + 1)) := by
              rw [hai, hbj]; simp [applyOps, hxy]
            have := applyOps_append_some (btr (fedSteps S I D cm a b) (i' + j' + 1) i' j')
              a b (b.take j') (a.drop i') (b.drop j') hIH [Op.m]
              [b[j']] (a.drop (i' + 1)) (b.drop (j' + 1)) hstep
            simp only [Nat.add_sub_cancel, hfe, this]
            have : b.take j' ++ [b[j']] = b.take (j' + 1) := by
              rw [List.take_succ, List.getElem?_eq_getElem (by omega)]
              rfl
            rw [this]
        | s =>
            have hij := fedSteps_s_pos S I D cm a b h
            obtain ⟨i', rfl⟩ : ∃ i', i = i' + 1 := ⟨i - 1, by omega⟩
            obtain ⟨j', rfl⟩ : ∃ j', j = j' + 1 := ⟨j - 1, by omega⟩
            have hIH := IH (i' + j') (by omega) i' j' rfl (by omega) (by omega)
            have hfe := btr_fuel_eq S I D cm a b (i' + j') i' j'
              (i' + 1 + (j' + 1)) (i' + j' + 1) rfl (by omega) (by omega)
            have hai : a.drop i' = a[i'] :: a.drop (i' + 1) :=
              List.drop_eq_getElem_cons (by omega)
            have hbj : b.drop j' = b[j'] :: b.drop (j' + 1) :=
              List.drop_eq_getElem_cons (by omega)
            have hstep : applyOps [Op.s] (a.drop i') (b.drop j') =
                some ([b[j']], a.drop (i' + 1), b.drop (j' + 1)) := by
              rw [hai, hbj]; simp [applyOps]
            have := applyOps_append_some (btr (fedSteps S I D cm a b) (i' + j' + 1) i' j')
              a b (b.take j') (a.drop i') (b.drop j') hIH [Op.s]
              [b[j']] (a.drop (i' + 1)) (b.drop (j' + 1)) hstep
            simp only [Nat.add_sub_cancel, hfe, this]
            have : b.take j' ++ [b[j']] = b.take (j' + 1) := by
              rw [List.take_succ, List.getElem?_eq_getElem (by omega)]
              rfl
            rw [this]

end Backtrace

section RowBounds

variable {α : Type*} [DecidableEq α]

lemma edRowStep_cons (s2 : List α) (p : ℕ) (prev : List ℕ) (s : α) :
    edRowStep s2 (p :: prev) s =
      (p + 1) ::
        List.zipWith min
          (List.zipWith min (prev.map (· + 1))
            (List.zipWith (fun q y => q + if y = s then 0 else 1) (p :: prev) s2))
          (((p + 1) ::
            List.zipWith min (prev.map (· + 1))
              (List.zipWith (fun q y => q + if y = s then 0 else 1) (p :: prev) s2)).map
            (· + 1)) := by
  simp [edRowStep]

lemma edRowStep_length (s2 : List α) (s : α) (prev : List ℕ)
    (hlen : prev.length = s2.length + 1) :
    (edRowStep s2 prev s).length = s2.length + 1 := by
  match prev with
  | [] => simp at hlen
  | p :: prev =>
      rw [edRowStep_cons]
      simp only [List.length_cons, List.length_zipWith, List.length_map] at hlen ⊢
      omega

lemma edRowStep_bound (s2 : List α) (s : α) (i : ℕ) (prev : List ℕ)
    (hlen : prev.length = s2.length + 1)
    (hB : ∀ k v, prev[k]? = some v → i ≤ v + k ∧ k ≤ v + i ∧ (v ≤ i ∨ v ≤ k)) :
    ∀ k v, (edRowStep s2 prev s)[k]? = some v →
      i + 1 ≤ v + k ∧ k ≤ v + (i + 1) ∧ (v ≤ i + 1 ∨ v ≤ k) := by
  match prev with
  | [] => simp at hlen
  | p :: prev =>
    have hp := hB 0 p (by simp)
    have hpi : p = i := by omega
    rw [edRowStep_cons]
    -- bounds for the substitution-pass row
    have hsub : ∀ k v,
        ((p + 1) ::
          List.zipWith min (prev.map (· + 1))
            (List.zipWith (fun q y => q + if y = s then 0 else 1) (p :: prev) s2))[k]?
            = some v →
        i + 1 ≤ v + k ∧ k ≤ v + (i + 1) ∧ (v ≤ i + 1 ∨ v ≤ k) := by
      intro k v hk
      match k with
      | 0 =>
          simp only [List.getElem?_cons_zero, Option.some.injEq] at hk
          omega
      | k + 1 =>
          simp only [List.getElem?_cons_succ, List.getElem?_zipWith', List.getElem?_map] at hk
          cases h1 : prev[k]? with
          | none => rw [h1] at hk; simp at hk
          | some pu =>
              rw [h1] at hk
              cases h2 : (p :: prev)[k]? with
              | none => rw [h2] at hk; simp at hk
              | some pd =>
                  rw [h2] at hk
                  cases h3 : s2[k]? with
                  | none => rw [h3] at hk; simp at hk
                  | some y =>
                      rw [h3] at hk
                      simp only [Option.map_some', Option.some_bind, Option.some.injEq] at hk
                      have hu := hB (k + 1) pu (by simpa using h1)
                      have hd := hB k pd h2
                      by_cases hy : y = s <;> simp [hy] at hk <;> omega
    have hkey : ∀ k v,
        (List.zipWith min
          (List.zipWith min (prev.map (· + 1))
            (List.zipWith (fun q y => q + if y = s then 0 else 1) (p :: prev) s2))
          (((p + 1) ::
            List.zipWith min (prev.map (· + 1))
              (List.zipWith (fun q y => q + if y = s then 0 else 1) (p :: prev) s2)).map
            (· + 1)))[k]? = some v →
        i + 1 ≤ v + (k + 1) ∧ k + 1 ≤ v + (i + 1) ∧ (v ≤ i + 1 ∨ v ≤ k + 1) := by
      intro k v hk
      rw [List.getElem?_zipWith'] at hk
      cases h1 : (List.zipWith min (prev.map (· + 1))
          (List.zipWith (fun q y => q + if y = s then 0 else 1) (p :: prev) s2))[k]? with
      | none => rw [h1] at hk; simp at hk
      | some t1 =>
          rw [h1] at hk
          cases h2 : ((((p + 1) ::
              List.zipWith min (prev.map (· + 1))
                (List.zipWith (fun q y => q + if y = s then 0 else 1) (p :: prev) s2)).map
              (· + 1)))[k]? with
          | none => rw [h2] at hk; simp at hk
          | some t0p =>
              rw [h2] at hk
              simp only [Option.map_some', Option.some_bind, Option.some.injEq] at hk
              have ht1 := hsub (k + 1) t1 (by simpa using h1)
              rw [List.getElem?_map] at h2
              cases h3 : (((p + 1) ::
                  List.zipWith min (prev.map (· + 1))
                    (List.zipWith (fun q y => q + if y = s then 0 else 1)
                      (p :: prev) s2)))[k]? with
              | none => rw [h3] at h2; simp at h2
              | some t0 =>
                  rw [h3] at h2
                  simp only [Option.map_some', Option.some.injEq] at h2
                  have ht0 := hsub k t0 h3
                  omega
    intro k v hk
    match k with
    | 0 =>
        simp only [List.getElem?_cons_zero, Option.some.injEq] at hk
        omega
    | k + 1 =>
        simp only [List.getElem?_cons_succ] at hk
        exact hkey k v hk

lemma foldl_edRowStep_length (s2 : List α) :
    ∀ (l : List α) (prev : List ℕ), prev.length = s2.length + 1 →
      (l.foldl (edRowStep s2) prev).length = s2.length + 1 := by
  intro l
  induction l with
  | nil => intro prev h; simpa using h
  | cons s l ih =>
      intro prev h
      simp only [List.foldl_cons]
      exact ih _ (edRowStep_length s2 s prev h)

lemma foldl_edRowStep_bound (s2 : List α) :
    ∀ (l : List α) (prev : List ℕ) (i : ℕ), prev.length = s2.length + 1 →
      (∀ k v, prev[k]? = some v → i ≤ v + k ∧ k ≤ v + i ∧ (v ≤ i ∨ v ≤ k)) →
      ∀ k v, (l.foldl (edRowStep s2) prev)[k]? = some v →
        i + l.length ≤ v + k ∧ k ≤ v + (i + l.length) ∧
          (v ≤ i + l.length ∨ v ≤ k) := by
  intro l
  induction l with
  | nil =>
      intro prev i h hB k v hk
      simp only [List.foldl_nil] at hk
      have := hB k v hk
      simp only [List.length_nil]
      omega
  | cons s l ih =>
      intro prev i h hB k v hk
      simp only [List.foldl_cons] at hk
      have := ih (edRowStep s2 prev s) (i + 1) (edRowStep_length s2 s prev h)
        (edRowStep_bound s2 s i prev h hB) k v hk
      simp only [List.length_cons]
      omega

lemma ed_core_bound (s1 s2 : List α) :
    s1.length ≤ ed_core s1 s2 + s2.length ∧
    s2.length ≤ ed_core s1 s2 + s1.length ∧
    ed_core s1 s2 ≤ max s1.length s2.length := by
  unfold ed_core
  split
  · rename_i h
    rw [Nat.max_def]
    split <;> omega
  · have hinit : ∀ k v, (List.range (s2.length + 1))[k]? = some v →
        0 ≤ v + k ∧ k ≤ v + 0 ∧ (v ≤ 0 ∨ v ≤ k) := by
      intro k v hk
      have hklt : k < s2.length + 1 := by
        by_contra hc
        rw [List.getElem?_eq_none (by simpa using hc)] at hk
        exact Option.noConfusion hk
      rw [List.getElem?_range hklt] at hk
      obtain rfl := Option.some.inj hk
      omega
    have hlen := foldl_edRowStep_length s2 s1 (List.range (s2.length + 1))
      (by simp)
    have hbound := foldl_edRowStep_bound s2 s1 (List.range (s2.length + 1)) 0
      (by simp) hinit
    set row := s1.foldl (edRowStep s2) (List.range (s2.length + 1)) with hrow
    have hlt : s2.length < row.length := by omega
    have hgetl : row[s2.length]? = some row[s2.length] := List.getElem?_eq_getElem hlt
    have hlast : row.getLastD 0 = row[s2.length] := by
      rw [List.getLastD_eq_getLast?, List.getLast?_eq_getElem?, hlen]
      simp only [Nat.add_sub_cancel, hgetl, Option.getD_some]
    rw [hlast]
    have := hbound s2.length row[s2.length] hgetl
    rw [Nat.max_def]
    split <;> omega

end RowBounds

section Scripts

variable {α : Type*} [DecidableEq α]

lemma applyOps_decomp :
    ∀ (l : List Op) (A B e ar br : List α),
      applyOps l A B = some (e, ar, br) →
      ∃ Ac, A = Ac ++ ar ∧ B = e ++ br ∧ applyOps l Ac e = some (e, [], []) := by
  intro l
  induction l with
  | nil =>
      intro A B e ar br h
      simp only [applyOps, Option.some.injEq, Prod.mk.injEq] at h
      obtain ⟨rfl, rfl, rfl⟩ := h
      exact ⟨[], by simp, by simp, rfl⟩
  | cons op l ih =>
      intro A B e ar br h
      match op, A, B with
      | Op.m, [], B => simp [applyOps] at h
      | Op.m, x :: A, [] => simp [applyOps] at h
      | Op.m, x :: A, y :: B =>
          simp only [applyOps] at h
          split at h
          · have hxy : x = y := by assumption
            rw [Option.map_eq_some'] at h
            obtain ⟨⟨e1, ar1, br1⟩, hr, hre⟩ := h
            simp only [Prod.mk.injEq] at hre
            obtain ⟨he, har, hbr⟩ := hre
            obtain ⟨Ac, hA, hB, hAc⟩ := ih A B e1 ar1 br1 hr
            refine ⟨x :: Ac, by simp [hA, har], by simp [hB, hbr, ← he], ?_⟩
            simp only [applyOps, if_pos hxy, hAc, Option.map_some', ← he]
          · exact absurd h (by simp)
      | Op.s, [], B => simp [applyOps] at h
      | Op.s, x :: A, [] => simp [applyOps] at h
      | Op.s, x :: A, y :: B =>
          simp only [applyOps, Option.map_eq_some'] at h
          obtain ⟨⟨e1, ar1, br1⟩, hr, hre⟩ := h
          simp only [Prod.mk.injEq] at hre
          obtain ⟨he, har, hbr⟩ := hre
          obtain ⟨Ac, hA, hB, hAc⟩ := ih A B e1 ar1 br1 hr
          refine ⟨x :: Ac, by simp [hA, har], by simp [hB, hbr, ← he], ?_⟩
          simp only [applyOps, hAc, Option.map_some', ← he]
      | Op.i, A, [] => simp [applyOps] at h
      | Op.i, A, y :: B =>
          simp only [applyOps, Option.map_eq_some'] at h
          obtain ⟨⟨e1, ar1, br1⟩, hr, hre⟩ := h
          simp only [Prod.mk.injEq] at hre
          obtain ⟨he, har, hbr⟩ := hre
          obtain ⟨Ac, hA, hB, hAc⟩ := ih A B e1 ar1 br1 hr
          refine ⟨Ac, by simp [hA, har], by simp [hB, hbr, ← he], ?_⟩
          simp only [applyOps, hAc, Option.map_some', ← he]
      | Op.d, [], B => simp [applyOps] at h
      | Op.d, x :: A, B =>
          simp only [applyOps, Option.map_eq_some'] at h
          obtain ⟨⟨e1, ar1, br1⟩, hr, hre⟩ := h
          simp only [Prod.mk.injEq] at hre
          obtain ⟨he, har, hbr⟩ := hre
          obtain ⟨Ac, hA, hB, hAc⟩ := ih A B e1 ar1 br1 hr
          refine ⟨x :: Ac, by simp [hA, har], by simp [hB, hbr, ← he], ?_⟩
          simp only [applyOps, hAc, Option.map_some', ← he]

lemma applyOps_extend :
    ∀ (l : List Op) (Ac Bc e A2 B2 : List α),
      applyOps l Ac Bc = some (e, [], []) →
      applyOps l (Ac ++ A2) (Bc ++ B2) = some (e, A2, B2) := by
  intro l
  induction l with
  | nil =>
      intro Ac Bc e A2 B2 h
      simp only [applyOps, Option.some.injEq, Prod.mk.injEq] at h
      obtain ⟨rfl, rfl, rfl⟩ := h
      simp [applyOps]
  | cons op l ih =>
      intro Ac Bc e A2 B2 h
      match op, Ac, Bc with
      | Op.m, [], Bc => simp [applyOps] at h
      | Op.m, x :: Ac, [] => simp [applyOps] at h
      | Op.m, x :: Ac, y :: Bc =>
          simp only [applyOps] at h
          split at h
          · have hxy : x = y := by assumption
            rw [Option.map_eq_some'] at h
            obtain ⟨⟨e1, ar1, br1⟩, hr, hre⟩ := h
            simp only [Prod.mk.injEq] at hre
            obtain ⟨he, har, hbr⟩ := hre
            have hih := ih Ac Bc e1 A2 B2 (by rw [hr, har, hbr])
            simp only [List.cons_append, applyOps, if_pos hxy, List.append_eq]
            rw [hih]
            simp [← he]
          · exact absurd h (by simp)
      | Op.s, [], Bc => simp [applyOps] at h
      | Op.s, x :: Ac, [] => simp [applyOps] at h
      | Op.s, x :: Ac, y :: Bc =>
          simp only [applyOps, Option.map_eq_some'] at h
          obtain ⟨⟨e1, ar1, br1⟩, hr, hre⟩ := h
          simp only [Prod.mk.injEq] at hre
          obtain ⟨he, har, hbr⟩ := hre
          have hih := ih Ac Bc e1 A2 B2 (by rw [hr, har, hbr])
          simp only [List.cons_append, applyOps, List.append_eq]
          rw [hih]
          simp [← he]
      | Op.i, Ac, [] => simp [applyOps] at h
      | Op.i, Ac, y :: Bc =>
          simp only [applyOps, Option.map_eq_some'] at h
          obtain ⟨⟨e1, ar1, br1⟩, hr, hre⟩ := h
          simp only [Prod.mk.injEq] at hre
          obtain ⟨he, har, hbr⟩ := hre
          have hih := ih Ac Bc e1 A2 B2 (by rw [hr, har, hbr])
          simp only [List.cons_append, applyOps, List.append_eq]
          rw [hih]
          simp [← he]
      | Op.d, [], Bc => simp [applyOps] at h
      | Op.d, x :: Ac, Bc =>
          simp only [applyOps, Option.map_eq_some'] at h
          obtain ⟨⟨e1, ar1, br1⟩, hr, hre⟩ := h
          simp only [Prod.mk.injEq] at hre
          obtain ⟨he, har, hbr⟩ := hre
          have hih := ih Ac Bc e1 A2 B2 (by rw [hr, har, hbr])
          simp only [List.cons_append, applyOps, List.append_eq]
          rw [hih]
          simp [← he]

lemma applyOps_append_inv :
    ∀ (l1 l2 : List Op) (A B : List α) (e ar br : List α),
      applyOps (l1 ++ l2) A B = some (e, ar, br) →
      ∃ e1 ar1 br1 e2, applyOps l1 A B = some (e1, ar1, br1) ∧
        applyOps l2 ar1 br1 = some (e2, ar, br) ∧ e = e1 ++ e2 := by
  intro l1
  induction l1 with
  | nil =>
      intro l2 A B e ar br h
      exact ⟨[], A, B, e, rfl, by simpa using h, by simp⟩
  | cons op l1 ih =>
      intro l2 A B e ar br h
      match op, A, B with
      | Op.m, [], B => simp [applyOps] at h
      | Op.m, x :: A, [] => simp [applyOps] at h
      | Op.m, x :: A, y :: B =>
          simp only [List.cons_append, applyOps] at h ⊢
          split at h
          · have hxy : x = y := by assumption
            rw [Option.map_eq_some'] at h
            obtain ⟨⟨e1, ar1, br1⟩, hr, hre⟩ := h
            simp only [Prod.mk.injEq] at hre
            obtain ⟨he, har, hbr⟩ := hre
            obtain ⟨f1, fa, fb, f2, hf1, hf2, hfe⟩ := ih l2 A B e1 ar1 br1 hr
            refine ⟨y :: f1, fa, fb, f2, ?_, by rw [hf2, har, hbr], by simp [← he, hfe]⟩
            simp only [if_pos hxy, hf1, Option.map_some']
          · exact absurd h (by simp)
      | Op.s, [], B => simp [applyOps] at h
      | Op.s, x :: A, [] => simp [applyOps] at h
      | Op.s, x :: A, y :: B =>
          simp only [List.cons_append, applyOps, Option.map_eq_some'] at h ⊢
          obtain ⟨⟨e1, ar1, br1⟩, hr, hre⟩ := h
          simp only [Prod.mk.injEq] at hre
          obtain ⟨he, har, hbr⟩ := hre
          obtain ⟨f1, fa, fb, f2, hf1, hf2, hfe⟩ := ih l2 A B e1 ar1 br1 hr
          exact ⟨y :: f1, fa, fb, f2, ⟨(f1, fa, fb), hf1, rfl⟩,
            by rw [hf2, har, hbr], by simp [← he, hfe]⟩
      | Op.i, A, [] => simp [applyOps] at h
      | Op.i, A, y :: B =>
          simp only [List.cons_append, applyOps, Option.map_eq_some'] at h ⊢
          obtain ⟨⟨e1, ar1, br1⟩, hr, hre⟩ := h
          simp only [Prod.mk.injEq] at hre
          obtain ⟨he, har, hbr⟩ := hre
          obtain ⟨f1, fa, fb, f2, hf1, hf2, hfe⟩ := ih l2 A B e1 ar1 br1 hr
          exact ⟨y :: f1, fa, fb, f2, ⟨(f1, fa, fb), hf1, rfl⟩,
            by rw [hf2, har, hbr], by simp [← he, hfe]⟩
      | Op.d, [], B => simp [applyOps] at h
      | Op.d, x :: A, B =>
          simp only [List.cons_append, applyOps, Option.map_eq_some'] at h ⊢
          obtain ⟨⟨e1, ar1, br1⟩, hr, hre⟩ := h
          simp only [Prod.mk.injEq] at hre
          obtain ⟨he, har, hbr⟩ := hre
          obtain ⟨f1, fa, fb, f2, hf1, hf2, hfe⟩ := ih l2 A B e1 ar1 br1 hr
          exact ⟨f1, fa, fb, f2, ⟨(f1, fa, fb), hf1, rfl⟩,
            by rw [hf2, har, hbr], by simp [← he, hfe]⟩

lemma applyOps_single_m_inv {ar br e2 : List α} [DecidableEq α]
    (h : applyOps [Op.m] ar br = some (e2, [], [])) :
    ∃ x, ar = [x] ∧ br = [x] ∧ e2 = [x] := by
  match ar, br with
  | [], br => simp [applyOps] at h
  | x :: ar, [] => simp [applyOps] at h
  | x :: ar, y :: br =>
      simp only [applyOps] at h
      split at h
      · have hxy : x = y := by assumption
        simp only [applyOps, Option.map_some', Option.some.injEq, Prod.mk.injEq] at h
        obtain ⟨he, har, hbr⟩ := h
        exact ⟨y, by simp [hxy, har], by simp [hbr], he.symm⟩
      · exact absurd h (by simp)

lemma applyOps_single_s_inv {ar br e2 : List α} [DecidableEq α]
    (h : applyOps [Op.s] ar br = some (e2, [], [])) :
    ∃ x y, ar = [x] ∧ br = [y] ∧ e2 = [y] := by
  match ar, br with
  | [], br => simp [applyOps] at h
  | x :: ar, [] => simp [applyOps] at h
  | x :: ar, y :: br =>
      simp only [applyOps, Option.map_some', Option.some.injEq, Prod.mk.injEq] at h
      obtain ⟨he, har, hbr⟩ := h
      exact ⟨x, y, by simp [har], by simp [hbr], he.symm⟩

lemma applyOps_single_i_inv {ar br e2 : List α} [DecidableEq α]
    (h : applyOps [Op.i] ar br = some (e2, [], [])) :
    ∃ y, ar = [] ∧ br = [y] ∧ e2 = [y] := by
  match ar, br with
  | ar, [] => simp [applyOps] at h
  | ar, y :: br =>
      simp only [applyOps, Option.map_some', Option.some.injEq, Prod.mk.injEq] at h
      obtain ⟨he, har, hbr⟩ := h
      exact ⟨y, har.symm ▸ rfl, by simp [hbr], he.symm⟩

lemma applyOps_single_d_inv {ar br e2 : List α} [DecidableEq α]
    (h : applyOps [Op.d] ar br = some (e2, [], [])) :
    ∃ x, ar = [x] ∧ br = [] ∧ e2 = [] := by
  match ar, br with
  | [], br => simp [applyOps] at h
  | x :: ar, br =>
      simp only [applyOps, Option.map_some', Option.some.injEq, Prod.mk.injEq] at h
      obtain ⟨he, har, hbr⟩ := h
      exact ⟨x, by simp [har], hbr.symm ▸ rfl, he.symm⟩

lemma take_succ_getElem (l : List α) (n : ℕ) (h : n < l.length) :
    l.take (n + 1) = l.take n ++ [l[n]] := by
  rw [List.take_succ, List.getElem?_eq_getElem h]
  rfl

lemma valid_snoc_i (a b : List α) (i j : ℕ) (hj : j < b.length) (l : List Op)
    (hl : applyOps l (a.take i) (b.take j) = some (b.take j, [], [])) :
    applyOps (l ++ [Op.i]) (a.take i) (b.take (j + 1)) =
      some (b.take (j + 1), [], []) := by
  have hext := applyOps_extend l (a.take i) (b.take j) (b.take j) [] [b[j]] hl
  rw [List.append_nil] at hext
  have hstep : applyOps [Op.i] ([] : List α) [b[j]] = some ([b[j]], [], []) := by
    simp [applyOps]
  have := applyOps_append_some l (a.take i) (b.take j ++ [b[j]]) (b.take j) [] [b[j]]
    hext [Op.i] [b[j]] [] [] hstep
  rw [take_succ_getElem b j hj]
  exact this

lemma valid_snoc_d (a b : List α) (i j : ℕ) (hi : i < a.length) (l : List Op)
    (hl : applyOps l (a.take i) (b.take j) = some (b.take j, [], [])) :
    applyOps (l ++ [Op.d]) (a.take (i + 1)) (b.take j) =
      some (b.take j, [], []) := by
  have hext := applyOps_extend l (a.take i) (b.take j) (b.take j) [a[i]] [] hl
  rw [List.append_nil] at hext
  have hstep : applyOps [Op.d] [a[i]] ([] : List α) = some ([], [], []) := by
    simp [applyOps]
  have := applyOps_append_some l (a.take i ++ [a[i]]) (b.take j) (b.take j) [a[i]] []
    hext [Op.d] [] [] [] hstep
  rw [take_succ_getElem a i hi]
  simpa using this

lemma valid_snoc_s (a b : List α) (i j : ℕ) (hi : i < a.length) (hj : j < b.length)
    (l : List Op)
    (hl : applyOps l (a.take i) (b.take j) = some (b.take j, [], [])) :
    applyOps (l ++ [Op.s]) (a.take (i + 1)) (b.take (j + 1)) =
      some (b.take (j + 1), [], []) := by
  have hext := applyOps_extend l (a.take i) (b.take j) (b.take j) [a[i]] [b[j]] hl
  have hstep : applyOps [Op.s] [a[i]] [b[j]] = some ([b[j]], [], []) := by
    simp [applyOps]
  have := applyOps_append_some l (a.take i ++ [a[i]]) (b.take j ++ [b[j]]) (b.take j)
    [a[i]] [b[j]] hext [Op.s] [b[j]] [] [] hstep
  rw [take_succ_getElem a i hi, take_succ_getElem b j hj]
  exact this

lemma valid_snoc_m (a b : List α) (i j : ℕ) (hi : i < a.length) (hj : j < b.length)
    (hxy : a[i] = b[j]) (l : List Op)
    (hl : applyOps l (a.take i) (b.take j) = some (b.take j, [], [])) :
    applyOps (l ++ [Op.m]) (a.take (i + 1)) (b.take (j + 1)) =
      some (b.take (j + 1), [], []) := by
  have hext := applyOps_extend l (a.take i) (b.take j) (b.take j) [a[i]] [b[j]] hl
  have hstep : applyOps [Op.m] [a[i]] [b[j]] = some ([b[j]], [], []) := by
    simp [applyOps, hxy]
  have := applyOps_append_some l (a.take i ++ [a[i]]) (b.take j ++ [b[j]]) (b.take j)
    [a[i]] [b[j]] hext [Op.m] [b[j]] [] [] hstep
  rw [take_succ_getElem a i hi, take_succ_getElem b j hj]
  exact this

lemma pathCost_default_eq_countP (a b : List α) :
    ∀ (ops : List Op) (i j : ℕ),
      pathCost 1 1 1 (fun _ _ => none) a b i j ops =
        (ops.countP (fun o => decide (o ≠ Op.m)) : ℤ) := by
  intro ops
  induction ops with
  | nil => intro i j; simp [pathCost]
  | cons op l ih =>
      intro i j
      cases op with
      | m =>
          rw [pathCost, ih]
          simp [List.countP_cons]
      | s =>
          rw [pathCost, ih]
          simp only [cmGet_const_none, List.countP_cons]
          push_cast
          simp
          ring
      | i =>
          rw [pathCost, ih]
          simp only [cmGet_const_none, List.countP_cons]
          split <;> (push_cast; simp; ring)
      | d =>
          rw [pathCost, ih]
          simp only [cmGet_const_none, List.countP_cons]
          split <;> (push_cast; simp; ring)

lemma script_valid_nil_inv (a b : List α) (i j : ℕ) (hi : i ≤ a.length)
    (hj : j ≤ b.length)
    (h : applyOps ([] : List Op) (a.take i) (b.take j) = some (b.take j, [], [])) :
    i = 0 ∧ j = 0 := by
  simp only [applyOps, Option.some.injEq, Prod.mk.injEq] at h
  obtain ⟨-, hA, hB⟩ := h
  constructor
  · have := congrArg List.length hA
    simp only [List.length_take, List.length_nil] at this
    omega
  · have := congrArg List.length hB
    simp only [List.length_take, List.length_nil] at this
    omega

lemma script_countP_ge (a b : List α) :
    ∀ (N : ℕ) (ops : List Op), ops.length ≤ N → ∀ i j, i ≤ a.length → j ≤ b.length →
      applyOps ops (a.take i) (b.take j) = some (b.take j, [], []) →
      lp a b i j ≤ ops.countP (fun o => decide (o ≠ Op.m)) := by
  intro N
  induction N with
  | zero =>
      intro ops hlen i j hi hj hv
      have hnil : ops = [] := List.length_eq_zero.mp (by omega)
      subst hnil
      obtain ⟨rfl, rfl⟩ := script_valid_nil_inv a b i j hi hj hv
      rw [lp_zero_left]
      simp
  | succ N ih =>
      intro ops hlen i j hi hj hv
      rcases List.eq_nil_or_concat ops with rfl | ⟨L, op, rfl⟩
      · obtain ⟨rfl, rfl⟩ := script_valid_nil_inv a b i j hi hj hv
        rw [lp_zero_left]
        simp
      · rw [List.concat_eq_append] at hv ⊢
        obtain ⟨e1, ar1, br1, e2, h1, h2, he⟩ :=
          applyOps_append_inv L [op] (a.take i) (b.take j) (b.take j) [] [] hv
        have hLlen : L.length ≤ N := by
          have := congrArg List.length (List.concat_eq_append L op)
          simp only [List.length_concat, List.length_append, List.length_cons,
            List.length_nil] at this hlen
          omega
        obtain ⟨Ac, hA, hB, hAc⟩ :=
          applyOps_decomp L (a.take i) (b.take j) e1 ar1 br1 h1
        cases op with
        | m =>
            obtain ⟨x, har, hbr, he2⟩ := applyOps_single_m_inv h2
            subst har hbr
            -- i and j are positive
            have hilen : i = Ac.length + 1 := by
              have := congrArg List.length hA
              simp only [List.length_take, List.length_append, List.length_cons,
                List.length_nil] at this
              omega
            have hjlen : j = e1.length + 1 := by
              have := congrArg List.length hB
              simp only [List.length_take, List.length_append, List.length_cons,
                List.length_nil] at this
              omega
            obtain ⟨i2, rfl⟩ : ∃ i2, i = i2 + 1 := ⟨Ac.length, hilen⟩
            obtain ⟨j2, rfl⟩ : ∃ j2, j = j2 + 1 := ⟨e1.length, hjlen⟩
            have htA := take_succ_getElem a i2 (by omega)
            have htB := take_succ_getElem b j2 (by omega)
            have hinjA := List.append_inj' (hA.symm.trans htA) (by simp)
            have hinjB := List.append_inj' (hB.symm.trans htB) (by simp)
            have hxa : x = a[i2] := by
              have := hinjA.2
              simp only [List.cons.injEq, and_true] at this
              exact this
            have hxb : x = b[j2] := by
              have := hinjB.2
              simp only [List.cons.injEq, and_true] at this
              exact this
            have hAcv : applyOps L (a.take i2) (b.take j2) =
                some (b.take j2, [], []) := by
              rw [← hinjA.1, ← hinjB.1]
              exact hinjB.1 ▸ hAc
            have hrec := ih L hLlen i2 j2 (by omega) (by omega) hAcv
            have heq : a.get? i2 = b.get? j2 := by
              rw [List.get?_eq_getElem?, List.get?_eq_getElem?,
                List.getElem?_eq_getElem (show i2 < a.length by omega),
                List.getElem?_eq_getElem (show j2 < b.length by omega),
                ← hxa, ← hxb]
            rw [lp_succ_succ, if_pos heq]
            simp only [ne_eq, decide_not] at hrec
            simp [List.countP_append, List.countP_cons]
            omega
        | s =>
            obtain ⟨x, y, har, hbr, he2⟩ := applyOps_single_s_inv h2
            subst har hbr
            have hilen : i = Ac.length + 1 := by
              have := congrArg List.length hA
              simp only [List.length_take, List.length_append, List.length_cons,
                List.length_nil] at this
              omega
            have hjlen : j = e1.length + 1 := by
              have := congrArg List.length hB
              simp only [List.length_take, List.length_append, List.length_cons,
                List.length_nil] at this
              omega
            obtain ⟨i2, rfl⟩ : ∃ i2, i = i2 + 1 := ⟨Ac.length, hilen⟩
            obtain ⟨j2, rfl⟩ : ∃ j2, j = j2 + 1 := ⟨e1.length, hjlen⟩
            have htA := take_succ_getElem a i2 (by omega)
            have htB := take_succ_getElem b j2 (by omega)
            have hinjA := List.append_inj' (hA.symm.trans htA) (by simp)
            have hinjB := List.append_inj' (hB.symm.trans htB) (by simp)
            have hAcv : applyOps L (a.take i2) (b.take j2) =
                some (b.take j2, [], []) := by
              rw [← hinjA.1, ← hinjB.1]
              exact hinjB.1 ▸ hAc
            have hrec := ih L hLlen i2 j2 (by omega) (by omega) hAcv
            have hstep : lp a b (i2 + 1) (j2 + 1) ≤ lp a b i2 j2 + 1 :=
              (lp_adjacent a b i2 j2).2.2.2.2.2
            simp only [ne_eq, decide_not] at hrec
            simp [List.countP_append, List.countP_cons]
            omega
        | i =>
            obtain ⟨y, har, hbr, he2⟩ := applyOps_single_i_inv h2
            subst har hbr
            have hjlen : j = e1.length + 1 := by
              have := congrArg List.length hB
              simp only [List.length_take, List.length_append, List.length_cons,
                List.length_nil] at this
              omega
            obtain ⟨j2, rfl⟩ : ∃ j2, j = j2 + 1 := ⟨e1.length, hjlen⟩
            have htB := take_succ_getElem b j2 (by omega)
            have hinjB := List.append_inj' (hB.symm.trans htB) (by simp)
            have hAcv : applyOps L (a.take i) (b.take j2) =
                some (b.take j2, [], []) := by
              have hAcm : Ac = a.take i := by simpa using hA.symm
              rw [← hAcm, ← hinjB.1]
              exact hinjB.1 ▸ hAc
            have hrec := ih L hLlen i j2 hi (by omega) hAcv
            have hstep : lp a b i (j2 + 1) ≤ lp a b i j2 + 1 :=
              (lp_adjacent a b i j2).1
            simp only [ne_eq, decide_not] at hrec
            simp [List.countP_append, List.countP_cons]
            omega
        | d =>
            obtain ⟨x, har, hbr, he2⟩ := applyOps_single_d_inv h2
            subst har hbr
            have hilen : i = Ac.length + 1 := by
              have := congrArg List.length hA
              simp only [List.length_take, List.length_append, List.length_cons,
                List.length_nil] at this
              omega
            obtain ⟨i2, rfl⟩ : ∃ i2, i = i2 + 1 := ⟨Ac.length, hilen⟩
            have htA := take_succ_getElem a i2 (by omega)
            have hinjA := List.append_inj' (hA.symm.trans htA) (by simp)
            have hAcv : applyOps L (a.take i2) (b.take j) =
                some (b.take j, [], []) := by
              have he1m : e1 = b.take j := by simpa using hB.symm
              rw [← hinjA.1, ← he1m]
              exact he1m ▸ hAc
            have hrec := ih L hLlen i2 j (by omega) hj hAcv
            have hstep : lp a b (i2 + 1) j ≤ lp a b i2 j + 1 :=
              (lp_adjacent a b i2 j).2.2.1
            simp only [ne_eq, decide_not] at hrec
            simp [List.countP_append, List.countP_cons]
            omega

lemma script_exists (a b : List α) :
    ∀ (n i j : ℕ), i + j = n → i ≤ a.length → j ≤ b.length →
      ∃ ops : List Op, applyOps ops (a.take i) (b.take j) = some (b.take j, [], []) ∧
        ops.countP (fun o => decide (o ≠ Op.m)) = lp a b i j := by
  intro n
  induction n using Nat.strong_induction_on with
  | _ n IH =>
    intro i j hn hi hj
    match i, j with
    | 0, 0 =>
        refine ⟨[], by simp [applyOps], ?_⟩
        rw [lp_zero_left]
        simp
    | i + 1, 0 =>
        obtain ⟨l, hv, hc⟩ := IH (i + 0) (by omega) i 0 rfl (by omega) (by omega)
        refine ⟨l ++ [Op.d], valid_snoc_d a b i 0 (by omega) l hv, ?_⟩
        rw [lp_left_zero]
        rw [lp_left_zero] at hc
        simp only [ne_eq, decide_not] at hc
        simp [List.countP_append, List.countP_cons]
        omega
    | 0, j + 1 =>
        obtain ⟨l, hv, hc⟩ := IH (0 + j) (by omega) 0 j rfl (by omega) (by omega)
        refine ⟨l ++ [Op.i], valid_snoc_i a b 0 j (by omega) l hv, ?_⟩
        rw [lp_zero_left]
        rw [lp_zero_left] at hc
        simp only [ne_eq, decide_not] at hc
        simp [List.countP_append, List.countP_cons]
        omega
    | i + 1, j + 1 =>
        by_cases heq : a.get? i = b.get? j
        · obtain ⟨l, hv, hc⟩ := IH (i + j) (by omega) i j rfl (by omega) (by omega)
          have hxy : a[i] = b[j] := by
            rw [List.get?_eq_getElem?, List.get?_eq_getElem?,
              List.getElem?_eq_getElem (show i < a.length by omega),
              List.getElem?_eq_getElem (show j < b.length by omega)] at heq
            exact Option.some.inj heq
          refine ⟨l ++ [Op.m],
            valid_snoc_m a b i j (by omega) (by omega) hxy l hv, ?_⟩
          rw [lp_succ_succ, if_pos heq]
          simp only [ne_eq, decide_not] at hc
          simp [List.countP_append, List.countP_cons]
          omega
        · have hmin : min (lp a b i j) (min (lp a b (i + 1) j) (lp a b i (j + 1))) =
              lp a b i j ∨
              min (lp a b i j) (min (lp a b (i + 1) j) (lp a b i (j + 1))) =
              lp a b (i + 1) j ∨
              min (lp a b i j) (min (lp a b (i + 1) j) (lp a b i (j + 1))) =
              lp a b i (j + 1) := by
            omega
          rcases hmin with hm | hm | hm
          · obtain ⟨l, hv, hc⟩ := IH (i + j) (by omega) i j rfl (by omega) (by omega)
            refine ⟨l ++ [Op.s],
              valid_snoc_s a b i j (by omega) (by omega) l hv, ?_⟩
            rw [lp_succ_succ, if_neg heq, hm]
            simp only [ne_eq, decide_not] at hc
            simp [List.countP_append, List.countP_cons]
            omega
          · obtain ⟨l, hv, hc⟩ := IH ((i + 1) + j) (by omega) (i + 1) j rfl
              (by omega) (by omega)
            refine ⟨l ++ [Op.i],
              valid_snoc_i a b (i + 1) j (by omega) l hv, ?_⟩
            rw [lp_succ_succ, if_neg heq, hm]
            simp only [ne_eq, decide_not] at hc
            simp [List.countP_append, List.countP_cons]
            omega
          · obtain ⟨l, hv, hc⟩ := IH (i + (j + 1)) (by omega) i (j + 1) rfl
              (by omega) (by omega)
            refine ⟨l ++ [Op.d],
              valid_snoc_d a b i (j + 1) (by omega) l hv, ?_⟩
            rw [lp_succ_succ, if_neg heq, hm]
            simp only [ne_eq, decide_not] at hc
            simp [List.countP_append, List.countP_cons]
            omega

end Scripts


section Greek

lemma toNat_ofNat_small (n : ℕ) (h : n < 0xD800) : (Char.ofNat n).toNat = n := by
  have hv : n.isValidChar := Or.inl h
  unfold Char.ofNat
  rw [dif_pos hv]
  rfl

lemma mem_map_ofNat_iff (st len : ℕ) (hlt : st + len ≤ 0xD800) (c : Char) :
    c ∈ (List.range' st len).map Char.ofNat ↔ st ≤ c.toNat ∧ c.toNat < st + len := by
  rw [List.mem_map]
  constructor
  · rintro ⟨n, hn, rfl⟩
    rw [List.mem_range'] at hn
    obtain ⟨k, hk, rfl⟩ := hn
    rw [toNat_ofNat_small (st + 1 * k) (by omega)]
    omega
  · rintro ⟨h1, h2⟩
    refine ⟨c.toNat, ?_, Char.ofNat_toNat c⟩
    rw [List.mem_range']
    exact ⟨c.toNat - st, by omega, by omega⟩

lemma mem_greek_chars_iff (c : Char) :
    c ∈ greek_chars ↔ inGreekRanges c.toNat := by
  unfold greek_chars inGreekRanges
  unfold greek_and_coptic_range extended_greek_range combining_diacritical_mark_range
  simp only [List.mem_append]
  rw [mem_map_ofNat_iff _ _ (by norm_num), mem_map_ofNat_iff _ _ (by norm_num),
    mem_map_ofNat_iff _ _ (by norm_num)]
  omega

lemma greek_contains_eq (c : Char) :
    greek_chars.contains c = decide (inGreekRanges c.toNat) := by
  rw [Bool.eq_iff_iff, List.contains_iff_exists_mem_beq, decide_eq_true_iff]
  constructor
  · rintro ⟨x, hx, hbeq⟩
    have : c = x := by
      have := eq_of_beq hbeq
      exact this
    rw [← mem_greek_chars_iff]
    exact this ▸ hx
  · intro h
    exact ⟨c, (mem_greek_chars_iff c).mpr h, by simp⟩

end Greek

section Claims

/-- Claim C1: for every pair of sequences `a` and `b`, replaying the operation
sequence returned by `align(a, b)` with default costs onto `a` reconstructs
`b` exactly: each `m` consumes one equal unit from both sequences, each `s`
consumes one unit from both emitting the unit of `b`, each `i` consumes and
emits one unit of `b`, each `d` consumes one unit of `a`, and at the end both
sequences are fully consumed and the emitted sequence equals `b`. -/
theorem claim1_align_replay {α : Type*} [DecidableEq α] (a b : List α) :
    replay a b (align 1 1 1 (fun _ _ => none) a b) = some b := by
  have h := btr_applyOps 1 1 1 (fun _ _ => none) a b (a.length + b.length)
    a.length b.length rfl le_rfl le_rfl
  rw [List.take_length, List.drop_length, List.drop_length] at h
  unfold replay align
  rw [h]

/-- Claim C2, counterexample: with substitution and deletion scores `1`,
insertion score `-5` and an empty override mapping, the cell `(1,1)` of the
scoring matrix for the pair `("a", "a")` is `0`, but the edit script `[i, d]`
transforms `"a"` into `"a"` at total cost `-4 < 0`, so the cell is not the
minimum cost of an edit script under the configured costs. -/
theorem claim2_counterexample :
    ¬ IsLeast
        {c : ℤ | ∃ ops : List Op,
          applyOps ops ("a".data.take 1) ("a".data.take 1) =
            some ("a".data.take 1, [], []) ∧
          pathCost 1 (-5) 1 (fun _ _ => none) "a".data "a".data 0 0 ops = c}
        (fedMatrix 1 (-5) 1 (fun _ _ => none) "a".data "a".data 1 1) := by
  intro hle
  have hmem : (-4 : ℤ) ∈
      {c : ℤ | ∃ ops : List Op,
        applyOps ops ("a".data.take 1) ("a".data.take 1) =
          some ("a".data.take 1, [], []) ∧
        pathCost 1 (-5) 1 (fun _ _ => none) "a".data "a".data 0 0 ops = c} :=
    ⟨[Op.i, Op.d], by decide, by decide⟩
  have hlb := hle.2 hmem
  have h0 : fedMatrix 1 (-5) 1 (fun _ _ => none) "a".data "a".data 1 1 = 0 := by
    decide
  rw [h0] at hlb
  omega

/-- Claim C2, amended: with the default cost configuration (substitution,
insertion and deletion scores all `1`, empty override mapping), every cell
`matrix[i][j]` of the scoring matrix returned by `full_edit_distance` equals
the minimum total cost, under those costs, of an edit script transforming the
first `i` units of `seq1` into the first `j` units of `seq2`. -/
theorem claim2_amended {α : Type*} [DecidableEq α] (a b : List α) (i j : ℕ)
    (hi : i ≤ a.length) (hj : j ≤ b.length) :
    IsLeast
      {c : ℤ | ∃ ops : List Op,
        applyOps ops (a.take i) (b.take j) = some (b.take j, [], []) ∧
        pathCost 1 1 1 (fun _ _ => none) a b 0 0 ops = c}
      (fedMatrix 1 1 1 (fun _ _ => none) a b i j) := by
  rw [fedMatrix_default_eq_lp a b i j hj]
  constructor
  · obtain ⟨ops, hv, hc⟩ := script_exists a b (i + j) i j rfl hi hj
    exact ⟨ops, hv, by rw [pathCost_default_eq_countP, hc]⟩
  · rintro c ⟨ops, hv, rfl⟩
    rw [pathCost_default_eq_countP]
    have := script_countP_ge a b ops.length ops le_rfl i j hi hj hv
    exact_mod_cast this

/-- Claim C2, witness for the amended theorem at a concrete input. -/
theorem claim2_amended_witness :
    IsLeast
      {c : ℤ | ∃ ops : List Op,
        applyOps ops ("ab".data.take 2) ("b".data.take 1) =
          some ("b".data.take 1, [], []) ∧
        pathCost 1 1 1 (fun _ _ => none) "ab".data "b".data 0 0 ops = c}
      (fedMatrix 1 1 1 (fun _ _ => none) "ab".data "b".data 2 1) :=
  claim2_amended "ab".data "b".data 2 1 (by decide) (by decide)

/-- Claim C3: the claim states that the bottom-right cell of the scoring
matrix of `full_edit_distance(a, b)` with default costs always equals
`edit_distance(a, b)`.  The code violates this: on the pair
`("aabba", "bbacc")` the rolling-two-row `edit_distance` returns `5` because
its vectorised deletion relaxation is a single parallel pass that cannot
propagate a chained deletion, while the full-matrix implementation (whose
inner cells relax against the already-updated cell to the left) returns the
true Levenshtein distance `4`. -/
theorem claim3_code_bug :
    edit_distance "aabba".data "bbacc".data = 5 ∧
    fedMatrix 1 1 1 (fun _ _ => none) "aabba".data "bbacc".data 5 5 = 4 := by
  exact ⟨by decide, by decide⟩

/-- Claim C4: in the operation matrix built by `full_edit_distance`, for every
interior cell whose two units differ, the recorded operation follows the fixed
tie-break order substitution, then insertion, then deletion: `s` is recorded
whenever the substitution candidate cost is less than or equal to both other
candidates, otherwise `i` whenever the insertion candidate is less than or
equal to the deletion candidate, otherwise `d`. -/
theorem claim4_tie_break {α : Type*} [DecidableEq α]
    (S I D : ℤ) (cm : Option α → Option α → Option ℤ) (a b : List α) (i j : ℕ)
    (hi : i < a.length) (hj : j < b.length) (hne : a.get? i ≠ b.get? j) :
    ((fedMatrix S I D cm a b i j + cmGet cm (a.get? i) (b.get? j) S ≤
        fedMatrix S I D cm a b (i + 1) j + cmGet cm (a.get? i) (b.get? j) I ∧
      fedMatrix S I D cm a b i j + cmGet cm (a.get? i) (b.get? j) S ≤
        fedMatrix S I D cm a b i (j + 1) + cmGet cm (a.get? i) (b.get? j) D) →
      fedSteps S I D cm a b (i + 1) (j + 1) = some Op.s) ∧
    (¬(fedMatrix S I D cm a b i j + cmGet cm (a.get? i) (b.get? j) S ≤
        fedMatrix S I D cm a b (i + 1) j + cmGet cm (a.get? i) (b.get? j) I ∧
      fedMatrix S I D cm a b i j + cmGet cm (a.get? i) (b.get? j) S ≤
        fedMatrix S I D cm a b i (j + 1) + cmGet cm (a.get? i) (b.get? j) D) →
      fedMatrix S I D cm a b (i + 1) j + cmGet cm (a.get? i) (b.get? j) I ≤
        fedMatrix S I D cm a b i (j + 1) + cmGet cm (a.get? i) (b.get? j) D →
      fedSteps S I D cm a b (i + 1) (j + 1) = some Op.i) ∧
    (¬(fedMatrix S I D cm a b i j + cmGet cm (a.get? i) (b.get? j) S ≤
        fedMatrix S I D cm a b (i + 1) j + cmGet cm (a.get? i) (b.get? j) I ∧
      fedMatrix S I D cm a b i j + cmGet cm (a.get? i) (b.get? j) S ≤
        fedMatrix S I D cm a b i (j + 1) + cmGet cm (a.get? i) (b.get? j) D) →
      ¬(fedMatrix S I D cm a b (i + 1) j + cmGet cm (a.get? i) (b.get? j) I ≤
        fedMatrix S I D cm a b i (j + 1) + cmGet cm (a.get? i) (b.get? j) D) →
      fedSteps S I D cm a b (i + 1) (j + 1) = some Op.d) := by
  refine ⟨?_, ?_, ?_⟩
  · rintro ⟨hs1, hs2⟩
    simp only [fedSteps, if_neg hne]
    rw [if_neg (show ¬ (fedMatrix S I D cm a b (i + 1) j +
        cmGet cm (a.get? i) (b.get? j) I <
        fedMatrix S I D cm a b i j + cmGet cm (a.get? i) (b.get? j) S) by omega)]
    dsimp only
    rw [if_neg (show ¬ (fedMatrix S I D cm a b i (j + 1) +
        cmGet cm (a.get? i) (b.get? j) D <
        fedMatrix S I D cm a b i j + cmGet cm (a.get? i) (b.get? j) S) by omega)]
  · intro hni hic
    have h1 : fedMatrix S I D cm a b (i + 1) j + cmGet cm (a.get? i) (b.get? j) I <
        fedMatrix S I D cm a b i j + cmGet cm (a.get? i) (b.get? j) S := by
      rcases not_and_or.mp hni with h | h <;> omega
    simp only [fedSteps, if_neg hne]
    rw [if_pos h1]
    dsimp only
    rw [if_neg (show ¬ (fedMatrix S I D cm a b i (j + 1) +
        cmGet cm (a.get? i) (b.get? j) D <
        fedMatrix S I D cm a b (i + 1) j +
        cmGet cm (a.get? i) (b.get? j) I) by omega)]
  · intro hni hnic
    by_cases h1 : fedMatrix S I D cm a b (i + 1) j + cmGet cm (a.get? i) (b.get? j) I <
        fedMatrix S I D cm a b i j + cmGet cm (a.get? i) (b.get? j) S
    · simp only [fedSteps, if_neg hne]
      rw [if_pos h1]
      dsimp only
      rw [if_pos (show fedMatrix S I D cm a b i (j + 1) +
          cmGet cm (a.get? i) (b.get? j) D <
          fedMatrix S I D cm a b (i + 1) j +
          cmGet cm (a.get? i) (b.get? j) I by omega)]
    · have hcd : fedMatrix S I D cm a b i (j + 1) + cmGet cm (a.get? i) (b.get? j) D <
          fedMatrix S I D cm a b i j + cmGet cm (a.get? i) (b.get? j) S := by
        rcases not_and_or.mp hni with h | h <;> omega
      simp only [fedSteps, if_neg hne]
      rw [if_neg h1]
      dsimp only
      rw [if_pos hcd]

/-- Claim C4, witness at a concrete input: for `("a", "b")` at the interior
cell `(1,1)` the units differ and the substitution candidate is minimal, so
the recorded operation is `s`. -/
theorem claim4_witness :
    fedSteps 1 1 1 (fun _ _ => none) "a".data "b".data 1 1 = some Op.s :=
  (claim4_tie_break 1 1 1 (fun _ _ => none) "a".data "b".data 0 0
    (by decide) (by decide) (by decide)).1 (by decide)

/-- Claim C5: semi-global alignment called with the first sequence longer than
the second fails with a distinct algorithm-usage error and returns no
operation sequence; it never silently swaps the two arguments or returns a
corrected result. -/
theorem claim5_semi_global_error {α : Type*} [DecidableEq α]
    (S I D : ℤ) (cm : Option α → Option α → Option ℤ) (a b : List α)
    (h : b.length < a.length) :
    semi_global_align S I D cm a b =
      Except.error NidabaAlgorithmException.orderingError := by
  unfold semi_global_align
  rw [if_pos h]

/-- Claim C5, witness at a concrete input. -/
theorem claim5_witness :
    semi_global_align 1 1 1 (fun _ _ => none) "ab".data "a".data =
      Except.error NidabaAlgorithmException.orderingError :=
  claim5_semi_global_error 1 1 1 (fun _ _ => none) "ab".data "a".data (by decide)

/-- Claim C6: the claim states that `edit_distance` is symmetric under the
default uniform costs.  The code violates this: on the pair
`("aabba", "bbacc")` (two sequences of equal length, so the argument swap does
not fire) `edit_distance` returns `5`, but on the reversed pair it returns
`4`, because the single-pass parallel deletion relaxation misses a chained
deletion in one orientation only. -/
theorem claim6_symmetry_code_bug :
    edit_distance "aabba".data "bbacc".data = 5 ∧
    edit_distance "bbacc".data "aabba".data = 4 := by
  exact ⟨by decide, by decide⟩

/-- Claim C7: with default costs, `align("sitting", "kitten")` returns exactly
the operation sequence `[s, m, m, m, s, m, d]`, whose three non-match
operations witness `edit_distance("sitting", "kitten") = 3`. -/
theorem claim7_concrete :
    align 1 1 1 (fun _ _ => none) "sitting".data "kitten".data =
      [Op.s, Op.m, Op.m, Op.m, Op.s, Op.m, Op.d] ∧
    List.countP (fun o => decide (o ≠ Op.m))
      (align 1 1 1 (fun _ _ => none) "sitting".data "kitten".data) = 3 ∧
    edit_distance "sitting".data "kitten".data = 3 := by
  exact ⟨by decide, by decide, by decide⟩

/-- Claim C8: for every pair of sequences, `edit_distance` with default costs
is a natural number bounded below by the absolute length difference and above
by the larger length. -/
theorem claim8_bounds {α : Type*} [DecidableEq α] (a b : List α) :
    ((a.length : ℤ) - b.length).natAbs ≤ edit_distance a b ∧
    edit_distance a b ≤ max a.length b.length := by
  unfold edit_distance
  split
  · obtain ⟨h1, h2, h3⟩ := ed_core_bound b a
    rw [Nat.max_def] at h3
    rw [Nat.max_def]
    constructor
    · omega
    · split at h3 <;> split <;> omega
  · obtain ⟨h1, h2, h3⟩ := ed_core_bound a b
    rw [Nat.max_def] at h3
    rw [Nat.max_def]
    constructor
    · omega
    · split at h3 <;> split <;> omega

/-- Claim C9: for every string, `greek_filter` returns an order-preserving
subsequence containing exactly those characters whose codepoints lie in
`[U+0370, U+03FF]`, `[U+1F00, U+1FFF]` or `[U+0300, U+0360]` (the
combining-diacritical range as coded, whose upper bound is `U+0360`); no
character outside these three closed intervals survives and no character is
introduced. -/
theorem claim9_greek_filter (s : List Char) :
    greek_filter s = s.filter (fun c => decide (inGreekRanges c.toNat)) ∧
    (greek_filter s).Sublist s ∧
    ∀ c : Char, c ∈ greek_filter s ↔ c ∈ s ∧ inGreekRanges c.toNat := by
  have hf : greek_filter s = s.filter (fun c => decide (inGreekRanges c.toNat)) := by
    unfold greek_filter
    congr 1
    funext c
    rw [greek_contains_eq]
  refine ⟨hf, ?_, ?_⟩
  · rw [hf]
    exact List.filter_sublist s
  · intro c
    rw [hf, List.mem_filter, decide_eq_true_iff]

/-- Claim C10: for every pair of input sequences and every cost configuration,
the backtrace loop of `align` terminates: cell `(0,0)` holds the empty
operation, column `0` below the origin holds only `d`, row `0` right of the
origin holds only `i`, every recorded operation moves the cursor within the
matrix bounds while strictly decreasing `i + j`, and the fuelled backtrace is
independent of any sufficient fuel, so the loop reaches the origin. -/
theorem claim10_termination {α : Type*} [DecidableEq α]
    (S I D : ℤ) (cm : Option α → Option α → Option ℤ) (a b : List α) :
    fedSteps S I D cm a b 0 0 = none ∧
    (∀ i, 1 ≤ i → fedSteps S I D cm a b i 0 = some Op.d) ∧
    (∀ j, 1 ≤ j → fedSteps S I D cm a b 0 j = some Op.i) ∧
    (∀ i j op, fedSteps S I D cm a b i j = some op →
      (opMove op i j).1 ≤ i ∧ (opMove op i j).2 ≤ j ∧
      (opMove op i j).1 + (opMove op i j).2 < i + j) ∧
    (∀ f, a.length + b.length + 1 ≤ f →
      btr (fedSteps S I D cm a b) f a.length b.length = align S I D cm a b) := by
  refine ⟨rfl, ?_, ?_, ?_, ?_⟩
  · intro i hi
    obtain ⟨i2, rfl⟩ : ∃ i2, i = i2 + 1 := ⟨i - 1, by omega⟩
    rfl
  · intro j hj
    obtain ⟨j2, rfl⟩ : ∃ j2, j = j2 + 1 := ⟨j - 1, by omega⟩
    rfl
  · intro i j op h
    cases op with
    | i =>
        have := fedSteps_i_pos S I D cm a b h
        simp only [opMove]
        omega
    | d =>
        have := fedSteps_d_pos S I D cm a b h
        simp only [opMove]
        omega
    | m =>
        obtain ⟨i2, j2, rfl, rfl, -⟩ := fedSteps_m_eq S I D cm a b h
        simp only [opMove]
        omega
    | s =>
        have := fedSteps_s_pos S I D cm a b h
        simp only [opMove]
        omega
  · intro f hf
    unfold align
    exact btr_fuel_eq S I D cm a b (a.length + b.length) a.length b.length f
      (a.length + b.length + 1) rfl hf le_rfl

/-- Claim C10, witness at a concrete input. -/
theorem claim10_witness :
    fedSteps 1 1 1 (fun _ _ => none) "a".data "b".data 1 0 = some Op.d ∧
    btr (fedSteps 1 1 1 (fun _ _ => none) "a".data "b".data) 5
      "a".data.length "b".data.length =
      align 1 1 1 (fun _ _ => none) "a".data "b".data := by
  have h := claim10_termination 1 1 1 (fun _ _ => none) "a".data "b".data
  exact ⟨h.2.1 1 (by decide), h.2.2.2.2 5 (by decide)⟩

end Claims

end Nidaba
